import Mathlib

/-!
Verification development for the `wr-audit-log` repository: a shallow embedding
of the metadata merge, primary-key extraction, safe JSON serialization, UPDATE
capture transform, logger facade guards, and error sanitization, together with
theorems settling the specification claims about them.

JavaScript runtime values are modelled by the inductive type `Value` below.
Object identity (as used by the `WeakSet` in `safeStringifyForPK`) is modelled
by a numeric identity tag on objects: two occurrences of the same tag stand for
two references to the same object.
-/

namespace WrAuditLog

/-- Model of a JavaScript value as it can occur in a row or metadata mapping.
`vObj` carries an identity tag modelling reference identity, plus the object's
own enumerable entries in insertion order. `vDate` carries the date's ISO-8601
rendering. `vBigInt` is a JavaScript BigInt, `vNum` an (integral) number. -/
inductive Value where
  | vNull
  | vUndefined
  | vBool (b : Bool)
  | vNum (n : Int)
  | vBigInt (n : Int)
  | vStr (s : String)
  | vDate (iso : String)
  | vObj (id : Nat) (fields : List (String × Value))

/-- A JavaScript plain object / record: entries in insertion order. -/
abbrev Fields := List (String × Value)

/-- True exactly for `undefined`. -/
def isUndefined : Value → Bool
  | Value.vUndefined => true
  | _ => false

/-- JavaScript `value == null`: true for `null` and `undefined`. -/
def isNullish : Value → Bool
  | Value.vNull => true
  | Value.vUndefined => true
  | _ => false

/-- JavaScript `String(value)` conversion for the value kinds we model.
(For dates the ISO rendering is used; the claims never depend on the exact
date text.) -/
def jsToString : Value → String
  | Value.vNull => "null"
  | Value.vUndefined => "undefined"
  | Value.vBool b => if b then "true" else "false"
  | Value.vNum n => toString n
  | Value.vBigInt n => toString n
  | Value.vStr s => s
  | Value.vDate iso => iso
  | Value.vObj _ _ => "[object Object]"

/-- JSON string escaping for one character (quote and backslash; the inputs in
this development contain no control characters). -/
def jsonEscapeChar (c : Char) : String :=
  if c = '"' then "\\\"" else if c = '\\' then "\\\\" else String.singleton c

/-- JSON quoting of a string. -/
def jsonQuote (s : String) : String :=
  "\"" ++ String.join (s.data.map jsonEscapeChar) ++ "\""

mutual

/-- Serialization of one value under `JSON.stringify` with the replacer of
`safeStringifyForPK` (src/unnamed/part_001 lines 73-103 and
src/src/utils/primary-key.ts lines 42-72): BigInt becomes its decimal string
(then JSON-quoted), dates become their ISO string, and an object whose
identity is already in the visited set becomes the literal `"[Circular]"`.
The visited set `seen` is threaded through and - like the source's `WeakSet` -
never shrinks. Returns the rendered text and the grown visited set. -/
def serEntry (seen : List Nat) : Value → String × List Nat
  | Value.vNull => ("null", seen)
  | Value.vUndefined => ("null", seen)
  | Value.vBool b => (if b then "true" else "false", seen)
  | Value.vNum n => (toString n, seen)
  | Value.vBigInt n => (jsonQuote (toString n), seen)
  | Value.vStr s => (jsonQuote s, seen)
  | Value.vDate iso => (jsonQuote iso, seen)
  | Value.vObj id fs =>
    if seen.contains id then (jsonQuote "[Circular]", seen)
    else
      let r := serFields (id :: seen) fs
      ("\x7b" ++ String.intercalate "," r.1 ++ "\x7d", r.2)

/-- Serialization of an object's entries in order; entries whose value is
`undefined` are skipped, as `JSON.stringify` does. -/
def serFields (seen : List Nat) : Fields → List String × List Nat
  | [] => ([], seen)
  | (k, v) :: rest =>
    match v with
    | Value.vUndefined => serFields seen rest
    | _ =>
      let r1 := serEntry seen v
      let r2 := serFields r1.2 rest
      ((jsonQuote k ++ ":" ++ r1.1) :: r2.1, r2.2)

end

/-- safeStringifyForPK (src/unnamed/part_001 lines 73-103, identical in
src/src/utils/primary-key.ts): `JSON.stringify(record, replacer)` with the
BigInt/Date/visited-set replacer. The root record is a fresh object literal,
so it is never itself revisited; the traversal starts with an empty visited
set. The `catch` fallback of the source is unreachable for the values
representable here, because the replacer eliminates every throwing case. -/
def safeStringifyForPK (record : Fields) : String :=
  "\x7b" ++ String.intercalate "," (serFields [] record).1 ++ "\x7d"

mutual

/-- Modelled from the spec: structural ("deep") value equality used by
`getChangedValues` (src/utils/serializer.ts, absent from src/): scalars by
value, dates by timestamp (ISO text), big integers numerically, nested
structures by deep equality - object identity tags are ignored. -/
def valueEq : Value → Value → Bool
  | Value.vNull, Value.vNull => true
  | Value.vUndefined, Value.vUndefined => true
  | Value.vBool a, Value.vBool b => a = b
  | Value.vNum a, Value.vNum b => a = b
  | Value.vBigInt a, Value.vBigInt b => a = b
  | Value.vStr a, Value.vStr b => a = b
  | Value.vDate a, Value.vDate b => a = b
  | Value.vObj _ fa, Value.vObj _ fb => fieldsEq fa fb
  | _, _ => false

/-- Deep equality of object entry lists, in order. -/
def fieldsEq : Fields → Fields → Bool
  | [], [] => true
  | (ka, va) :: ra, (kb, vb) :: rb => ka = kb && valueEq va vb && fieldsEq ra rb
  | _, _ => false

end

/-! ## Metadata merge (mergeMetadata, src/unnamed/part_001 lines 1-16)

The current source (the version with the forbidden-key filter, matching the
spec and the repository's tests; src/unnamed/part_000 holds the prior revision
without that filter) iterates the sources in order, skipping nullish sources,
forbidden keys and `undefined` values, and assigns into an accumulator object;
the result is `null` when the accumulator ends up empty. -/

/-- JavaScript forbidden-key test of mergeMetadata:
`key === "__proto__" || key === "constructor" || key === "prototype"`. -/
def isForbiddenKey (k : String) : Bool :=
  k = "__proto__" || k = "constructor" || k = "prototype"

/-- JavaScript object assignment `obj[key] = value`: updates the entry in
place when the key exists, otherwise appends it. -/
def objSet (m : Fields) (k : String) (v : Value) : Fields :=
  if m.any (fun kv => kv.1 = k) then
    m.map (fun kv => if kv.1 = k then (k, v) else kv)
  else m ++ [(k, v)]

/-- One iteration of mergeMetadata's inner loop: skip forbidden keys and
`undefined` values, otherwise assign. -/
def mergeEntry (acc : Fields) (kv : String × Value) : Fields :=
  if isForbiddenKey kv.1 then acc
  else if isUndefined kv.2 then acc
  else objSet acc kv.1 kv.2

/-- One iteration of mergeMetadata's outer loop: a nullish source is skipped
(`if (!source) continue`), otherwise its entries are folded in. -/
def mergeSource (acc : Fields) : Option Fields → Fields
  | none => acc
  | some src => src.foldl mergeEntry acc

/-- The accumulator object after all sources are merged. -/
def mergeAllList (sources : List (Option Fields)) : Fields :=
  sources.foldl mergeSource []

/-- mergeMetadata (src/unnamed/part_001 lines 1-16): merged record, or `null`
(`none`) when no effective entry was merged. -/
def mergeMetadata (sources : List (Option Fields)) : Option Fields :=
  let merged := mergeAllList sources
  if 0 < merged.length then some merged else none

/-- A source contributes nothing to a merge exactly when it is nullish or all
its entries have a forbidden key or an `undefined` value. -/
def effEmptySource : Option Fields → Bool
  | none => true
  | some m => m.all (fun kv => isForbiddenKey kv.1 || isUndefined kv.2)

/-! ## Configured primary-key extraction
(extractPrimaryKey, src/unnamed/part_001 lines 21-67) -/

/-- The `primaryKey` entry of a table config: `string | string[]`. -/
inductive PKSpec where
  | single (s : String)
  | multi (l : List String)

/-- JavaScript truthiness of the configured key (`!configuredKey` throws):
the empty string is falsy, every array is truthy. -/
def PKSpec.truthy : PKSpec → Bool
  | PKSpec.single s => !s.isEmpty
  | PKSpec.multi _ => true

/-- `Array.isArray(key) ? key : [key]`. -/
def PKSpec.toKeys : PKSpec → List String
  | PKSpec.single s => [s]
  | PKSpec.multi l => l

namespace PrimaryKey

/-- One step of the key-resolution loop of extractConfiguredPrimaryKey:
`const value = record[field]; if (value == null) return null;
resolved[field] = value;`. -/
def resolveStep (record : Fields) (acc : Option Fields) (field : String) : Option Fields :=
  acc.bind (fun m =>
    match List.lookup field record with
    | some v => if isNullish v then none else some (objSet m field v)
    | none => none)

/-- The resolved ordered key-field mapping, or `none` when some configured
key field is missing or nullish in the record. -/
def resolveKeys (record : Fields) (keys : List String) : Option Fields :=
  keys.foldl (resolveStep record) (some [])

/-- extractConfiguredPrimaryKey (src/unnamed/part_001 lines 49-67): resolve
all configured key fields; a single key yields `String(value)`, a composite
key yields the safe JSON serialization of the resolved mapping. -/
def extractConfiguredPrimaryKey (record : Fields) (key : PKSpec) : Option String :=
  let keys := key.toKeys
  match resolveKeys record keys with
  | none => none
  | some resolved =>
    if keys.length = 1 then
      some (jsToString ((List.lookup (keys.headD "") resolved).getD Value.vUndefined))
    else some (safeStringifyForPK resolved)

/-- extractPrimaryKey (src/unnamed/part_001 lines 21-36): fail when the table
has no truthy configured primaryKey; fail when a configured key field is
missing or nullish in the record; otherwise return the extracted key. -/
def extractPrimaryKey (record : Fields) (tableName : String)
    (tableConfigMap : List (String × PKSpec)) : Except String String :=
  match List.lookup tableName tableConfigMap with
  | none => Except.error ("tables." ++ tableName ++ ".primaryKey is required")
  | some spec =>
    if spec.truthy then
      match extractConfiguredPrimaryKey record spec with
      | none =>
        Except.error ("record missing configured primaryKey field(s) for table: " ++ tableName)
      | some s => Except.ok s
    else Except.error ("tables." ++ tableName ++ ".primaryKey is required")

end PrimaryKey

namespace PrimaryKeyLegacy

/-- extractPrimaryKey (src/src/utils/primary-key.ts lines 5-26), the variant
imported by src/src/capture/update.ts: try the common key names
`id`, `<table>_id`, `uuid`, `pk`; then the first field whose lower-cased name
ends in `id` with a non-nullish value; finally fall back to the safe JSON
serialization of the whole record. -/
def extractPrimaryKey (record : Fields) (tableName : String) : String :=
  let commonPkFields := ["id", tableName ++ "_id", "uuid", "pk"]
  match commonPkFields.find?
      (fun f => ((List.lookup f record).map isNullish).getD true = false) with
  | some f => jsToString ((List.lookup f record).getD Value.vUndefined)
  | none =>
    match record.find? (fun kv => kv.1.toLower.endsWith "id" && !isNullish kv.2) with
    | some kv => jsToString kv.2
    | none => safeStringifyForPK record

end PrimaryKeyLegacy

/-! ## Configuration, field filter and diff -/

/-- The `tables` option: the wildcard `"*"` or a list of table names. -/
inductive TablesSpec where
  | star
  | names (l : List String)

/-- The `updateValuesMode` option. -/
inductive UpdateMode where
  | full
  | changed
deriving DecidableEq

/-- Normalized configuration with the fields the embedded components read. -/
structure NormalizedConfig where
  tables : TablesSpec
  fields : List (String × List String)
  excludeFields : List String
  auditTable : String
  strictMode : Bool
  updateValuesMode : UpdateMode
  tableConfigMap : List (String × PKSpec)

/-- Modelled from the spec: filterFields (src/utils/serializer.ts, absent
from src/). Returns exactly the columns of `row` that appear in
`fields[table]` when that is configured (in the configured order), else all
columns (in row order), always minus `excludeFields`. -/
def filterFields (row : Fields) (tableName : String) (config : NormalizedConfig) : Fields :=
  match List.lookup tableName config.fields with
  | some cols =>
    cols.filterMap (fun c =>
      if config.excludeFields.contains c then none
      else (List.lookup c row).map (fun v => (c, v)))
  | none => row.filter (fun kv => !config.excludeFields.contains kv.1)

/-- Modelled from the spec: getChangedValues (src/utils/serializer.ts, absent
from src/). The entries of `after` whose key is absent from `before` or whose
value differs from `before`'s by structural equality; empty when nothing
changed. -/
def getChangedValues (before after : Fields) : Fields :=
  after.filter (fun kv =>
    match List.lookup kv.1 before with
    | some w => !valueEq w kv.2
    | none => true)

/-! ## Capture transform for UPDATE (src/src/capture/update.ts) -/

/-- An in-memory audit record (src/types/audit.ts): action, table, record id,
optional values, optional metadata. -/
structure AuditLog where
  action : String
  tableName : String
  recordId : String
  values : Option Fields
  metadata : Option Fields

/-- The `beforeById` map of createUpdateAuditLogs: index the non-null before
rows by extracted primary key; a later row with the same key overwrites
(`Map.set`). -/
def buildBeforeIndex (tableName : String) (beforeRecords : List (Option Fields)) :
    String → Option Fields :=
  beforeRecords.foldl
    (fun acc ob =>
      match ob with
      | none => acc
      | some b =>
        fun k => if k = PrimaryKeyLegacy.extractPrimaryKey b tableName then some b else acc k)
    (fun _ => none)

/-- createUpdateAuditLogs (src/src/capture/update.ts lines 9-72). In full
mode, or when the before list is empty, one record per non-null after row
with the filtered full row as values. Otherwise each after row is paired with
its before row by primary key: an unmatched row falls back to full values; a
matched row produces a record exactly when the filtered diff is non-empty,
with the diff as values. Null rows are skipped (`if (!after) continue`). -/
def createUpdateAuditLogs (tableName : String) (beforeRecords afterRecords : List (Option Fields))
    (config : NormalizedConfig) : List AuditLog :=
  if config.updateValuesMode = UpdateMode.full ∨ beforeRecords.length = 0 then
    afterRecords.filterMap (fun oa =>
      oa.map (fun after =>
        ⟨"UPDATE", tableName, PrimaryKeyLegacy.extractPrimaryKey after tableName,
          some (filterFields after tableName config), none⟩))
  else
    let beforeById := buildBeforeIndex tableName beforeRecords
    afterRecords.filterMap (fun oa =>
      oa.bind (fun after =>
        match beforeById (PrimaryKeyLegacy.extractPrimaryKey after tableName) with
        | none =>
          some ⟨"UPDATE", tableName, PrimaryKeyLegacy.extractPrimaryKey after tableName,
            some (filterFields after tableName config), none⟩
        | some before =>
          let changedValues :=
            getChangedValues (filterFields before tableName config)
              (filterFields after tableName config)
          if changedValues.length > 0 then
            some ⟨"UPDATE", tableName, PrimaryKeyLegacy.extractPrimaryKey after tableName,
              some changedValues, none⟩
          else none))

/-- Modelled from the spec: createInsertAuditLogs (src/capture/insert.ts,
absent from src/): for each non-null row emit an INSERT record with the
configured primary key and the filtered row; primary-key extraction can fail. -/
def createInsertAuditLogs (tableName : String) (records : List (Option Fields))
    (config : NormalizedConfig) : Except String (List AuditLog) :=
  (records.filterMap id).mapM (fun r =>
    (PrimaryKey.extractPrimaryKey r tableName config.tableConfigMap).map (fun pk =>
      (⟨"INSERT", tableName, pk, some (filterFields r tableName config), none⟩ : AuditLog)))

/-- Modelled from the spec: createDeleteAuditLogs (src/capture/delete.ts,
absent from src/), symmetric to INSERT with action DELETE. -/
def createDeleteAuditLogs (tableName : String) (records : List (Option Fields))
    (config : NormalizedConfig) : Except String (List AuditLog) :=
  (records.filterMap id).mapM (fun r =>
    (PrimaryKey.extractPrimaryKey r tableName config.tableConfigMap).map (fun pk =>
      (⟨"DELETE", tableName, pk, some (filterFields r tableName config), none⟩ : AuditLog)))

/-! ## Logger facade (src/src/utils/logging.ts) -/

/-- shouldAudit (src/src/utils/logging.ts lines 72-83): never audit the audit
table itself; otherwise wildcard, or membership in the configured tables. -/
def shouldAudit (config : NormalizedConfig) (tableName : String) : Bool :=
  if tableName = config.auditTable then false
  else
    match config.tables with
    | TablesSpec.star => true
    | TablesSpec.names l => l.contains tableName

/-- Modelled from the spec: the audit writer's observable state (the writer
class lives in src/storage, absent from src/): the sequence of audit records
handed to it. -/
structure WriterState where
  written : List AuditLog

/-- Modelled from the spec: writer.writeAuditLogs appends the records to the
persisted sequence. -/
def writeAuditLogs (st : WriterState) (logs : List AuditLog) : WriterState :=
  ⟨st.written ++ logs⟩

/-- logInsert (src/src/utils/logging.ts lines 88-98): return immediately when
the table is not audited; otherwise build INSERT records and hand them to the
writer. -/
def logInsert (config : NormalizedConfig) (st : WriterState) (tableName : String)
    (records : List (Option Fields)) : Except String WriterState :=
  if !shouldAudit config tableName then Except.ok st
  else (createInsertAuditLogs tableName records config).map (writeAuditLogs st)

/-- logUpdate (src/src/utils/logging.ts lines 103-115): return immediately
when the table is not audited; otherwise build UPDATE records and hand them
to the writer. -/
def logUpdate (config : NormalizedConfig) (st : WriterState) (tableName : String)
    (beforeRecords afterRecords : List (Option Fields)) : WriterState :=
  if !shouldAudit config tableName then st
  else writeAuditLogs st (createUpdateAuditLogs tableName beforeRecords afterRecords config)

/-- logDelete (src/src/utils/logging.ts lines 120-130): return immediately
when the table is not audited; otherwise build DELETE records and hand them
to the writer. -/
def logDelete (config : NormalizedConfig) (st : WriterState) (tableName : String)
    (records : List (Option Fields)) : Except String WriterState :=
  if !shouldAudit config tableName then Except.ok st
  else (createDeleteAuditLogs tableName records config).map (writeAuditLogs st)

/-! ## Error sanitization (src/src/utils/logging.ts lines 3-19) -/

/-- The three disjoint input classes `sanitizeError` distinguishes:
an `Error` instance (with its `name`, `message` and optional `code`
property), a string, or any other value. -/
inductive ErrInput where
  | errObj (name message : String) (code : Option Value)
  | strVal (s : String)
  | otherVal (v : Value)

/-- The result of `sanitizeError`: a `{name, message, code?}` record or a
plain string. -/
inductive Sanitized where
  | record (name message : String) (code : Option String)
  | msg (s : String)
deriving DecidableEq

/-- sanitizeError (src/src/utils/logging.ts lines 3-19): an Error surfaces
`{name, message, code?}` with `code` kept only when it is a string; a string
passes through; anything else becomes "Unknown error". -/
def sanitizeError : ErrInput → Sanitized
  | ErrInput.errObj n m c =>
    Sanitized.record n m
      (match c with
       | some (Value.vStr s) => some s
       | _ => none)
  | ErrInput.strVal s => Sanitized.msg s
  | ErrInput.otherVal _ => Sanitized.msg "Unknown error"

/-! ## Helper lemmas -/

/-- A successful association-list lookup exhibits a member entry. -/
theorem lookup_mem {k : String} {v : Value} :
    ∀ {l : Fields}, List.lookup k l = some v → (k, v) ∈ l := by
  intro l
  induction l with
  | nil => intro h; exact Option.noConfusion h
  | cons kv rest ih =>
    obtain ⟨k1, v1⟩ := kv
    intro h
    rw [List.lookup] at h
    by_cases hk : k = k1
    · subst hk
      simp only [beq_self_eq_true, cond_true] at h
      cases h
      exact List.mem_cons_self _ _
    · have hbeq : (k == k1) = false := beq_eq_false_iff_ne.mpr hk
      rw [hbeq] at h
      exact List.mem_cons_of_mem _ (ih h)

/-- The safe serialization always starts with a brace, hence is non-empty. -/
theorem safeStringifyForPK_ne_empty (record : Fields) : safeStringifyForPK record ≠ "" := by
  intro h
  have hlen := congrArg String.length h
  rw [safeStringifyForPK, String.length_append, String.length_append] at hlen
  have h1 : ("\x7b" : String).length = 1 := rfl
  have h2 : ("\x7d" : String).length = 1 := rfl
  have h0 : ("" : String).length = 0 := rfl
  omega

/-! ## C8: shouldAudit and the manual-logging guard -/

/-- C8: shouldAudit is false on the audit table itself, true under the
wildcard, and otherwise membership in the configured tables; when it is
false, logInsert, logUpdate and logDelete return with the writer state
unchanged and no record built. -/
theorem shouldAudit_and_manual_guard :
    ∀ (config : NormalizedConfig) (tableName : String) (st : WriterState)
      (records beforeRecords afterRecords : List (Option Fields)),
    (tableName = config.auditTable → shouldAudit config tableName = false) ∧
    (config.tables = TablesSpec.star → tableName ≠ config.auditTable →
      shouldAudit config tableName = true) ∧
    (∀ l, config.tables = TablesSpec.names l → tableName ≠ config.auditTable →
      shouldAudit config tableName = l.contains tableName) ∧
    (shouldAudit config tableName = false →
      logInsert config st tableName records = Except.ok st ∧
      logUpdate config st tableName beforeRecords afterRecords = st ∧
      logDelete config st tableName records = Except.ok st) := by
  intro config tableName st records beforeRecords afterRecords
  refine ⟨fun h => ?_, fun ht h => ?_, fun l ht h => ?_, fun h => ?_⟩
  · simp [shouldAudit, h]
  · simp [shouldAudit, h, ht]
  · simp [shouldAudit, h, ht]
  · exact ⟨by simp [logInsert, h], by simp [logUpdate, h], by simp [logDelete, h]⟩

/-- Witness for C8 at a concrete configuration: the audit table itself is
never audited and the three manual operations leave the writer untouched. -/
theorem shouldAudit_and_manual_guard_witness :
    shouldAudit ⟨TablesSpec.names ["users"], [], [], "audit_logs", false, UpdateMode.full, []⟩
        "audit_logs" = false ∧
    logInsert ⟨TablesSpec.names ["users"], [], [], "audit_logs", false, UpdateMode.full, []⟩
        ⟨[]⟩ "audit_logs" [] = Except.ok ⟨[]⟩ ∧
    logUpdate ⟨TablesSpec.names ["users"], [], [], "audit_logs", false, UpdateMode.full, []⟩
        ⟨[]⟩ "audit_logs" [] [] = ⟨[]⟩ := by
  have h := shouldAudit_and_manual_guard
    ⟨TablesSpec.names ["users"], [], [], "audit_logs", false, UpdateMode.full, []⟩
    "audit_logs" ⟨[]⟩ [] [] []
  have hfalse := h.1 rfl
  exact ⟨hfalse, (h.2.2.2 hfalse).1, (h.2.2.2 hfalse).2.1⟩

/-! ## C9: sanitizeError -/

/-- C9: sanitizeError surfaces name, message and a code kept only when the
code property is a string; strings pass through verbatim; every other value
becomes "Unknown error". -/
theorem sanitizeError_cases :
    (∀ n m s, sanitizeError (ErrInput.errObj n m (some (Value.vStr s))) =
      Sanitized.record n m (some s)) ∧
    (∀ n m c, (∀ s, c ≠ some (Value.vStr s)) →
      sanitizeError (ErrInput.errObj n m c) = Sanitized.record n m none) ∧
    (∀ s, sanitizeError (ErrInput.strVal s) = Sanitized.msg s) ∧
    (∀ v, sanitizeError (ErrInput.otherVal v) = Sanitized.msg "Unknown error") := by
  refine ⟨fun n m s => rfl, fun n m c h => ?_, fun s => rfl, fun v => rfl⟩
  match c with
  | none => rfl
  | some Value.vNull => rfl
  | some Value.vUndefined => rfl
  | some (Value.vBool b) => rfl
  | some (Value.vNum n') => rfl
  | some (Value.vBigInt n') => rfl
  | some (Value.vStr s) => exact absurd rfl (h s)
  | some (Value.vDate iso) => rfl
  | some (Value.vObj id fs) => rfl

/-- Witness for C9: a non-string code is dropped. -/
theorem sanitizeError_cases_witness :
    sanitizeError (ErrInput.errObj "Error" "boom" (some (Value.vNum 7))) =
      Sanitized.record "Error" "boom" none :=
  sanitizeError_cases.2.1 "Error" "boom" (some (Value.vNum 7))
    (fun _ h => Value.noConfusion (Option.some.inj h))

/-! ## C10: the visited set marks repeated objects, not only cycles -/

/-- C10: an acyclic input in which the same object (identity tag 7) occurs at
two distinct positions serializes the second occurrence as the literal
"[Circular]" - the visited set of safeStringifyForPK is never cleared after a
subtree finishes. -/
theorem safeStringify_repeated_object_circular :
    safeStringifyForPK
        [("a", Value.vObj 7 [("x", Value.vNum 1)]), ("b", Value.vObj 7 [("x", Value.vNum 1)])] =
      "\x7b\"a\":\x7b\"x\":1\x7d,\"b\":\"[Circular]\"\x7d" ∧
    ∃ p q : String,
      safeStringifyForPK
          [("a", Value.vObj 7 [("x", Value.vNum 1)]), ("b", Value.vObj 7 [("x", Value.vNum 1)])] =
        p ++ "\"[Circular]\"" ++ q :=
  ⟨rfl, "\x7b\"a\":\x7b\"x\":1\x7d,\"b\":", "\x7d", rfl⟩

/-! ## C1: configured primary-key extraction fails loudly -/

/-- Once the resolution loop has failed, it stays failed. -/
theorem foldl_resolveStep_none (record : Fields) :
    ∀ keys : List String, keys.foldl (PrimaryKey.resolveStep record) none = none := by
  intro keys
  induction keys with
  | nil => rfl
  | cons f rest ih => simpa [PrimaryKey.resolveStep] using ih

/-- If some listed key field is missing or nullish in the record, the
resolution loop fails whatever its accumulator. -/
theorem foldl_resolveStep_missing (record : Fields) {k : String} :
    ∀ (keys : List String) (acc : Option Fields), k ∈ keys →
      (∀ v, List.lookup k record = some v → isNullish v = true) →
      keys.foldl (PrimaryKey.resolveStep record) acc = none := by
  intro keys
  induction keys with
  | nil => intro acc hmem _; exact absurd hmem (List.not_mem_nil k)
  | cons f rest ih =>
    intro acc hmem hbad
    rcases List.mem_cons.mp hmem with hk | hk
    · subst hk
      have hstep : PrimaryKey.resolveStep record acc k = none := by
        cases acc with
        | none => rfl
        | some m =>
          rw [PrimaryKey.resolveStep]
          cases hl : List.lookup k record with
          | none => rfl
          | some v => simp [hbad v hl]
      rw [List.foldl_cons, hstep]
      exact foldl_resolveStep_none record rest
    · exact ih _ hk hbad

/-- C1: extractPrimaryKey fails when the table-config map has no (truthy)
primaryKey entry for the table, and fails when a configured key field is
missing or nullish in the record - it never substitutes another field. -/
theorem extractPrimaryKey_fails_loudly :
    ∀ (record : Fields) (tableName : String) (tableConfigMap : List (String × PKSpec)),
    (List.lookup tableName tableConfigMap = none →
      PrimaryKey.extractPrimaryKey record tableName tableConfigMap =
        Except.error ("tables." ++ tableName ++ ".primaryKey is required")) ∧
    (∀ spec k, List.lookup tableName tableConfigMap = some spec → spec.truthy = true →
      k ∈ spec.toKeys → (∀ v, List.lookup k record = some v → isNullish v = true) →
      PrimaryKey.extractPrimaryKey record tableName tableConfigMap =
        Except.error ("record missing configured primaryKey field(s) for table: " ++ tableName)) := by
  intro record tableName tableConfigMap
  constructor
  · intro h
    rw [PrimaryKey.extractPrimaryKey, h]
  · intro spec k hspec htruthy hmem hbad
    rw [PrimaryKey.extractPrimaryKey, hspec]
    have hresolved : PrimaryKey.resolveKeys record spec.toKeys = none :=
      foldl_resolveStep_missing record spec.toKeys (some []) hmem hbad
    simp [htruthy, PrimaryKey.extractConfiguredPrimaryKey, hresolved]

/-- Witness for C1: a table absent from the config map, and a configured key
field absent from the row, both raise the documented errors. -/
theorem extractPrimaryKey_fails_loudly_witness :
    PrimaryKey.extractPrimaryKey [] "users" [] =
      Except.error "tables.users.primaryKey is required" ∧
    PrimaryKey.extractPrimaryKey [] "users" [("users", PKSpec.single "id")] =
      Except.error "record missing configured primaryKey field(s) for table: users" :=
  ⟨(extractPrimaryKey_fails_loudly [] "users" []).1 rfl,
   (extractPrimaryKey_fails_loudly [] "users" [("users", PKSpec.single "id")]).2
     (PKSpec.single "id") "id" rfl rfl (List.mem_singleton.mpr rfl)
     (fun _ h => Option.noConfusion h)⟩

/-! ## C5: composite primary keys serialize safely -/

/-- C5: a composite configured primary key yields the safe JSON serialization
of the resolved ordered key mapping (no exception is possible); big integers
render as decimal strings, and an already-seen object renders as the literal
"[Circular]". The concrete conjunct replays the repository's big-integer
composite-key example. -/
theorem extractPrimaryKey_composite_serializes :
    (∀ (record : Fields) (tableName : String) (tableConfigMap : List (String × PKSpec))
       (spec : PKSpec) (resolved : Fields),
      List.lookup tableName tableConfigMap = some spec → spec.truthy = true →
      2 ≤ spec.toKeys.length → PrimaryKey.resolveKeys record spec.toKeys = some resolved →
      PrimaryKey.extractPrimaryKey record tableName tableConfigMap =
        Except.ok (safeStringifyForPK resolved)) ∧
    (PrimaryKey.extractPrimaryKey
        [("orgId", Value.vBigInt 9007199254740991), ("entryId", Value.vStr "e1")] "ledger"
        [("ledger", PKSpec.multi ["orgId", "entryId"])] =
      Except.ok "\x7b\"orgId\":\"9007199254740991\",\"entryId\":\"e1\"\x7d" ∧
     (∃ p q : String,
        "\x7b\"orgId\":\"9007199254740991\",\"entryId\":\"e1\"\x7d" =
          p ++ "\"9007199254740991\"" ++ q) ∧
     (∃ p q : String,
        "\x7b\"orgId\":\"9007199254740991\",\"entryId\":\"e1\"\x7d" =
          p ++ "\"entryId\":\"e1\"" ++ q)) ∧
    (∀ (seen : List Nat) (id : Nat) (fs : List (String × Value)), seen.contains id = true →
      serEntry seen (Value.vObj id fs) = (jsonQuote "[Circular]", seen)) := by
  refine ⟨?_, ⟨rfl, ⟨"\x7b\"orgId\":", ",\"entryId\":\"e1\"\x7d", rfl⟩,
    ⟨"\x7b\"orgId\":\"9007199254740991\",", "\x7d", rfl⟩⟩, ?_⟩
  · intro record tableName tableConfigMap spec resolved hspec htruthy hlen hres
    rw [PrimaryKey.extractPrimaryKey, hspec]
    have hne1 : spec.toKeys.length ≠ 1 := by omega
    simp [htruthy, PrimaryKey.extractConfiguredPrimaryKey, hres, hne1]
  · intro seen id fs h
    have hmem : id ∈ seen := by simpa using h
    simp [serEntry, hmem]

/-- Witness for C5: the general composite conjunct applied at the
big-integer example, and the visited-set conjunct at a seen identity. -/
theorem extractPrimaryKey_composite_serializes_witness :
    PrimaryKey.extractPrimaryKey
        [("orgId", Value.vBigInt 9007199254740991), ("entryId", Value.vStr "e1")] "ledger"
        [("ledger", PKSpec.multi ["orgId", "entryId"])] =
      Except.ok (safeStringifyForPK
        [("orgId", Value.vBigInt 9007199254740991), ("entryId", Value.vStr "e1")]) ∧
    serEntry [7] (Value.vObj 7 [("x", Value.vNum 1)]) = (jsonQuote "[Circular]", [7]) :=
  ⟨extractPrimaryKey_composite_serializes.1
      [("orgId", Value.vBigInt 9007199254740991), ("entryId", Value.vStr "e1")] "ledger"
      [("ledger", PKSpec.multi ["orgId", "entryId"])] (PKSpec.multi ["orgId", "entryId"])
      [("orgId", Value.vBigInt 9007199254740991), ("entryId", Value.vStr "e1")]
      rfl rfl (by decide) rfl,
   extractPrimaryKey_composite_serializes.2.2 [7] 7 [("x", Value.vNum 1)] rfl⟩

/-! ## C2: changed-mode diff behaviour of createUpdateAuditLogs -/

/-- C2: in changed mode with a non-empty before list, an after row whose
primary key matches a before row contributes a record exactly when the
filtered before and after rows differ on some permitted column, and that
record's values are exactly the differing columns with their after values;
all other after rows contribute independently. In particular an UPDATE that
changes no permitted field contributes no record. -/
theorem update_changed_diff :
    ∀ (tableName : String) (config : NormalizedConfig)
      (beforeRecords l1 l2 : List (Option Fields)) (a b : Fields),
      config.updateValuesMode = UpdateMode.changed →
      beforeRecords ≠ [] →
      buildBeforeIndex tableName beforeRecords
          (PrimaryKeyLegacy.extractPrimaryKey a tableName) = some b →
      createUpdateAuditLogs tableName beforeRecords (l1 ++ some a :: l2) config =
        createUpdateAuditLogs tableName beforeRecords l1 config ++
        (if (getChangedValues (filterFields b tableName config)
              (filterFields a tableName config)).length > 0 then
          [⟨"UPDATE", tableName, PrimaryKeyLegacy.extractPrimaryKey a tableName,
            some (getChangedValues (filterFields b tableName config)
              (filterFields a tableName config)), none⟩]
         else []) ++
        createUpdateAuditLogs tableName beforeRecords l2 config := by
  intro tableName config beforeRecords l1 l2 a b hmode hne hmatch
  have hcond : ¬(config.updateValuesMode = UpdateMode.full ∨ beforeRecords.length = 0) := by
    rw [hmode]
    simp [List.length_eq_zero, hne]
  simp only [createUpdateAuditLogs, if_neg hcond, List.filterMap_append, List.filterMap_cons,
    Option.some_bind, hmatch]
  by_cases hch : (getChangedValues (filterFields b tableName config)
      (filterFields a tableName config)).length > 0
  · simp [hch]
  · simp [hch]

/-- Witness for C2 at a concrete changed-mode call: the name change is
emitted with exactly the changed column, per the theorem. -/
theorem update_changed_diff_witness :
    createUpdateAuditLogs "users" [some [("id", Value.vNum 1), ("name", Value.vStr "A")]]
        ([] ++ some [("id", Value.vNum 1), ("name", Value.vStr "B")] :: [])
        ⟨TablesSpec.star, [], [], "audit_logs", false, UpdateMode.changed, []⟩ =
      createUpdateAuditLogs "users" [some [("id", Value.vNum 1), ("name", Value.vStr "A")]] []
        ⟨TablesSpec.star, [], [], "audit_logs", false, UpdateMode.changed, []⟩ ++
      (if (getChangedValues
            (filterFields [("id", Value.vNum 1), ("name", Value.vStr "A")] "users"
              ⟨TablesSpec.star, [], [], "audit_logs", false, UpdateMode.changed, []⟩)
            (filterFields [("id", Value.vNum 1), ("name", Value.vStr "B")] "users"
              ⟨TablesSpec.star, [], [], "audit_logs", false, UpdateMode.changed, []⟩)).length > 0 then
        [⟨"UPDATE", "users",
          PrimaryKeyLegacy.extractPrimaryKey [("id", Value.vNum 1), ("name", Value.vStr "B")] "users",
          some (getChangedValues
            (filterFields [("id", Value.vNum 1), ("name", Value.vStr "A")] "users"
              ⟨TablesSpec.star, [], [], "audit_logs", false, UpdateMode.changed, []⟩)
            (filterFields [("id", Value.vNum 1), ("name", Value.vStr "B")] "users"
              ⟨TablesSpec.star, [], [], "audit_logs", false, UpdateMode.changed, []⟩)), none⟩]
       else []) ++
      createUpdateAuditLogs "users" [some [("id", Value.vNum 1), ("name", Value.vStr "A")]] []
        ⟨TablesSpec.star, [], [], "audit_logs", false, UpdateMode.changed, []⟩ :=
  update_changed_diff "users"
    ⟨TablesSpec.star, [], [], "audit_logs", false, UpdateMode.changed, []⟩
    [some [("id", Value.vNum 1), ("name", Value.vStr "A")]] [] []
    [("id", Value.vNum 1), ("name", Value.vStr "B")]
    [("id", Value.vNum 1), ("name", Value.vStr "A")]
    rfl (by simp) rfl

/-! ## C3: full mode, missing before state, and unmatched rows -/

/-- C3: in full mode or with an empty before list, createUpdateAuditLogs
emits one record per non-null after row with the filtered full row as values;
in changed mode an after row with no primary-key match among the before rows
likewise contributes one full-values record. -/
theorem update_full_fallback :
    ∀ (tableName : String) (config : NormalizedConfig)
      (beforeRecords afterRecords : List (Option Fields)),
    (config.updateValuesMode = UpdateMode.full ∨ beforeRecords = [] →
      createUpdateAuditLogs tableName beforeRecords afterRecords config =
        afterRecords.filterMap (fun oa => oa.map (fun after =>
          ⟨"UPDATE", tableName, PrimaryKeyLegacy.extractPrimaryKey after tableName,
            some (filterFields after tableName config), none⟩))) ∧
    (∀ (a : Fields) (l1 l2 : List (Option Fields)),
      config.updateValuesMode = UpdateMode.changed → beforeRecords ≠ [] →
      buildBeforeIndex tableName beforeRecords
          (PrimaryKeyLegacy.extractPrimaryKey a tableName) = none →
      afterRecords = l1 ++ some a :: l2 →
      createUpdateAuditLogs tableName beforeRecords afterRecords config =
        createUpdateAuditLogs tableName beforeRecords l1 config ++
        [⟨"UPDATE", tableName, PrimaryKeyLegacy.extractPrimaryKey a tableName,
          some (filterFields a tableName config), none⟩] ++
        createUpdateAuditLogs tableName beforeRecords l2 config) := by
  intro tableName config beforeRecords afterRecords
  constructor
  · intro hfull
    have hcond : config.updateValuesMode = UpdateMode.full ∨ beforeRecords.length = 0 := by
      rcases hfull with h | h
      · exact Or.inl h
      · exact Or.inr (by simp [h])
    simp only [createUpdateAuditLogs, if_pos hcond]
  · intro a l1 l2 hmode hne hmiss hsplit
    subst hsplit
    have hcond : ¬(config.updateValuesMode = UpdateMode.full ∨ beforeRecords.length = 0) := by
      rw [hmode]
      simp [List.length_eq_zero, hne]
    simp only [createUpdateAuditLogs, if_neg hcond, List.filterMap_append, List.filterMap_cons,
      Option.some_bind, hmiss]
    simp

/-- Witness for C3: the full-mode conjunct at a concrete call, and the
unmatched-row conjunct at a before row with a different primary key. -/
theorem update_full_fallback_witness :
    createUpdateAuditLogs "users" [] [some [("id", Value.vNum 1)]]
        ⟨TablesSpec.star, [], [], "audit_logs", false, UpdateMode.full, []⟩ =
      [some [("id", Value.vNum 1)]].filterMap (fun oa => oa.map (fun after =>
        ⟨"UPDATE", "users", PrimaryKeyLegacy.extractPrimaryKey after "users",
          some (filterFields after "users"
            ⟨TablesSpec.star, [], [], "audit_logs", false, UpdateMode.full, []⟩), none⟩)) ∧
    createUpdateAuditLogs "users" [some [("id", Value.vNum 2)]]
        ([] ++ some [("id", Value.vNum 1)] :: [])
        ⟨TablesSpec.star, [], [], "audit_logs", false, UpdateMode.changed, []⟩ =
      createUpdateAuditLogs "users" [some [("id", Value.vNum 2)]] []
        ⟨TablesSpec.star, [], [], "audit_logs", false, UpdateMode.changed, []⟩ ++
      [⟨"UPDATE", "users", PrimaryKeyLegacy.extractPrimaryKey [("id", Value.vNum 1)] "users",
        some (filterFields [("id", Value.vNum 1)] "users"
          ⟨TablesSpec.star, [], [], "audit_logs", false, UpdateMode.changed, []⟩), none⟩] ++
      createUpdateAuditLogs "users" [some [("id", Value.vNum 2)]] []
        ⟨TablesSpec.star, [], [], "audit_logs", false, UpdateMode.changed, []⟩ :=
  ⟨(update_full_fallback "users"
      ⟨TablesSpec.star, [], [], "audit_logs", false, UpdateMode.full, []⟩
      [] [some [("id", Value.vNum 1)]]).1 (Or.inl rfl),
   (update_full_fallback "users"
      ⟨TablesSpec.star, [], [], "audit_logs", false, UpdateMode.changed, []⟩
      [some [("id", Value.vNum 2)]] ([] ++ some [("id", Value.vNum 1)] :: [])).2
     [("id", Value.vNum 1)] [] [] rfl (by simp) rfl rfl⟩

/-! ## C4: recordId non-emptiness (refuted, then amended) -/

/-- Counterexample to C4 as stated: a row whose `id` column holds the empty
string is captured with `recordId = ""` - the heuristic extractor converts
the value with `String(...)`, which keeps the empty string. -/
theorem update_recordId_counterexample :
    ¬ (∀ log ∈ createUpdateAuditLogs "users" [] [some [("id", Value.vStr "")]]
          ⟨TablesSpec.star, [], [], "audit_logs", false, UpdateMode.full, []⟩,
        log.recordId ≠ "") := by
  intro h
  have hmem : (⟨"UPDATE", "users", "", some [("id", Value.vStr "")], none⟩ : AuditLog) ∈
      createUpdateAuditLogs "users" [] [some [("id", Value.vStr "")]]
        ⟨TablesSpec.star, [], [], "audit_logs", false, UpdateMode.full, []⟩ := by
    have e : createUpdateAuditLogs "users" [] [some [("id", Value.vStr "")]]
        ⟨TablesSpec.star, [], [], "audit_logs", false, UpdateMode.full, []⟩ =
        [⟨"UPDATE", "users", "", some [("id", Value.vStr "")], none⟩] := rfl
    rw [e]
    exact List.mem_singleton.mpr rfl
  exact h _ hmem rfl

/-- Every record emitted by the UPDATE transform takes its recordId from the
primary-key extraction of one of the after rows. -/
theorem update_log_recordId_from_row :
    ∀ (tableName : String) (beforeRecords afterRecords : List (Option Fields))
      (config : NormalizedConfig) (log : AuditLog),
      log ∈ createUpdateAuditLogs tableName beforeRecords afterRecords config →
      ∃ a, some a ∈ afterRecords ∧
        log.recordId = PrimaryKeyLegacy.extractPrimaryKey a tableName := by
  intro tableName beforeRecords afterRecords config log hmem
  rw [createUpdateAuditLogs] at hmem
  by_cases hcond : config.updateValuesMode = UpdateMode.full ∨ beforeRecords.length = 0
  · rw [if_pos hcond] at hmem
    obtain ⟨oa, hoa, heq⟩ := List.mem_filterMap.mp hmem
    cases oa with
    | none => exact Option.noConfusion heq
    | some a =>
      refine ⟨a, hoa, ?_⟩
      cases heq
      rfl
  · rw [if_neg hcond] at hmem
    obtain ⟨oa, hoa, heq⟩ := List.mem_filterMap.mp hmem
    cases oa with
    | none => exact Option.noConfusion heq
    | some a =>
      refine ⟨a, hoa, ?_⟩
      rw [Option.some_bind] at heq
      rcases hidx : buildBeforeIndex tableName beforeRecords
          (PrimaryKeyLegacy.extractPrimaryKey a tableName) with _ | b
      · rw [hidx] at heq
        cases heq
        rfl
      · rw [hidx] at heq
        by_cases hch : (getChangedValues (filterFields b tableName config)
            (filterFields a tableName config)).length > 0
        · simp only [hch, if_true, if_pos hch] at heq
          cases heq
          rfl
        · simp only [if_neg hch] at heq
          exact Option.noConfusion heq

/-- The legacy extractor returns the empty string only when the value it
selected converts to the empty string; the JSON fallback is never empty. -/
theorem legacy_extractPrimaryKey_empty :
    ∀ (record : Fields) (tableName : String),
      PrimaryKeyLegacy.extractPrimaryKey record tableName = "" →
      ∃ k v, (k, v) ∈ record ∧ jsToString v = "" := by
  intro record tableName h
  rw [PrimaryKeyLegacy.extractPrimaryKey] at h
  split at h
  next f hfind =>
    have hp := List.find?_some hfind
    simp only [decide_eq_true_eq] at hp
    rcases hl : List.lookup f record with _ | v
    · rw [hl] at hp
      simp at hp
    · rw [hl] at h
      simp only [Option.getD_some] at h
      exact ⟨f, v, lookup_mem hl, h⟩
  next hfind =>
    split at h
    next kv hfind2 =>
      refine ⟨kv.1, kv.2, ?_, h⟩
      have := List.mem_of_find?_eq_some hfind2
      simpa using this
    next hfind2 =>
      exact absurd h (safeStringifyForPK_ne_empty record)

/-- The configured extractor returns the empty string only when its single
key's value converts to the empty string; composite serializations are never
empty. -/
theorem configured_extractPrimaryKey_empty :
    ∀ (record : Fields) (tableName : String) (tableConfigMap : List (String × PKSpec))
      (s : String),
      PrimaryKey.extractPrimaryKey record tableName tableConfigMap = Except.ok s → s = "" →
      ∃ k v, (k, v) ∈ record ∧ jsToString v = "" := by
  intro record tableName tableConfigMap s hok hempty
  subst hempty
  rw [PrimaryKey.extractPrimaryKey] at hok
  split at hok
  next hspec => exact Except.noConfusion hok
  next spec hspec =>
    split at hok
    · split at hok
      next hcfg => exact Except.noConfusion hok
      next s' hcfg =>
        have hs' : s' = "" := Except.ok.inj hok
        subst hs'
        rw [PrimaryKey.extractConfiguredPrimaryKey] at hcfg
        split at hcfg
        next hres => exact Option.noConfusion hcfg
        next resolved hres =>
          split at hcfg
          next hlen =>
            obtain ⟨k0, hk0⟩ := List.length_eq_one.mp hlen
            rw [PrimaryKey.resolveKeys, hk0] at hres
            rw [List.foldl_cons, List.foldl_nil, PrimaryKey.resolveStep] at hres
            simp only [Option.some_bind] at hres
            split at hres
            next v hl =>
              split at hres
              next hnull => exact Option.noConfusion hres
              next hnull =>
                have hresolved : resolved = objSet [] k0 v := (Option.some.inj hres).symm
                have hobj : objSet [] k0 v = [(k0, v)] := rfl
                rw [hk0] at hcfg
                simp only [List.headD_cons] at hcfg
                rw [hresolved, hobj] at hcfg
                have hlook : List.lookup k0 [(k0, v)] = some v := by simp [List.lookup]
                rw [hlook] at hcfg
                simp only [Option.getD_some] at hcfg
                exact ⟨k0, v, lookup_mem hl, Option.some.inj hcfg⟩
            next hl => exact Option.noConfusion hres
          next hlen =>
            have hsafe : safeStringifyForPK resolved = "" := Option.some.inj hcfg
            exact absurd hsafe (safeStringifyForPK_ne_empty resolved)
    · exact Except.noConfusion hok

/-- C4 as amended: every record emitted by the capture transform carries the
primary-key extraction of one of the after rows as its recordId; that
extraction (in either extractor variant) can be empty only when the row
itself holds a value whose string conversion is empty - otherwise the
recordId is non-empty. -/
theorem update_recordId_amended :
    (∀ (tableName : String) (beforeRecords afterRecords : List (Option Fields))
       (config : NormalizedConfig) (log : AuditLog),
      log ∈ createUpdateAuditLogs tableName beforeRecords afterRecords config →
      (∃ a, some a ∈ afterRecords ∧
        log.recordId = PrimaryKeyLegacy.extractPrimaryKey a tableName) ∧
      (log.recordId = "" →
        ∃ a k v, some a ∈ afterRecords ∧ (k, v) ∈ a ∧ jsToString v = "")) ∧
    (∀ (record : Fields) (tableName : String) (tableConfigMap : List (String × PKSpec))
       (s : String),
      PrimaryKey.extractPrimaryKey record tableName tableConfigMap = Except.ok s → s = "" →
      ∃ k v, (k, v) ∈ record ∧ jsToString v = "") := by
  constructor
  · intro tableName beforeRecords afterRecords config log hmem
    obtain ⟨a, ha, hrec⟩ :=
      update_log_recordId_from_row tableName beforeRecords afterRecords config log hmem
    refine ⟨⟨a, ha, hrec⟩, fun hempty => ?_⟩
    obtain ⟨k, v, hkv, hjs⟩ :=
      legacy_extractPrimaryKey_empty a tableName (by rw [← hrec]; exact hempty)
    exact ⟨a, k, v, ha, hkv, hjs⟩
  · exact configured_extractPrimaryKey_empty

/-- Witness for C4's amended statement at a concrete emitted record. -/
theorem update_recordId_amended_witness :
    ∃ a, some a ∈ [some [("id", Value.vStr "u1")]] ∧
      (⟨"UPDATE", "users", "u1", some [("id", Value.vStr "u1")], none⟩ : AuditLog).recordId =
        PrimaryKeyLegacy.extractPrimaryKey a "users" := by
  have h := (update_recordId_amended.1 "users" [] [some [("id", Value.vStr "u1")]]
    ⟨TablesSpec.star, [], [], "audit_logs", false, UpdateMode.full, []⟩
    ⟨"UPDATE", "users", "u1", some [("id", Value.vStr "u1")], none⟩ (by
      have e : createUpdateAuditLogs "users" [] [some [("id", Value.vStr "u1")]]
          ⟨TablesSpec.star, [], [], "audit_logs", false, UpdateMode.full, []⟩ =
          [⟨"UPDATE", "users", "u1", some [("id", Value.vStr "u1")], none⟩] := rfl
      rw [e]
      exact List.mem_singleton.mpr rfl)).1
  exact h

/-! ## C6: mergeMetadata drops forbidden keys -/

/-- Every entry of an assignment result is an old entry or the assigned one. -/
theorem objSet_mem {m : Fields} {k : String} {v : Value} {kv : String × Value}
    (h : kv ∈ objSet m k v) : kv ∈ m ∨ kv = (k, v) := by
  rw [objSet] at h
  split at h
  · obtain ⟨kv1, hkv1, heq⟩ := List.mem_map.mp h
    by_cases hk : kv1.1 = k
    · right
      rw [if_pos hk] at heq
      exact heq.symm
    · left
      rw [if_neg hk] at heq
      exact heq ▸ hkv1
  · rcases List.mem_append.mp h with h1 | h1
    · exact Or.inl h1
    · right
      simpa using h1

/-- The inner merge loop never introduces a forbidden key. -/
theorem foldl_mergeEntry_forbidden {l : Fields} :
    ∀ {acc : Fields}, (∀ kv ∈ acc, isForbiddenKey kv.1 = false) →
      ∀ kv ∈ l.foldl mergeEntry acc, isForbiddenKey kv.1 = false := by
  induction l with
  | nil => intro acc hacc kv h; exact hacc kv h
  | cons e rest ih =>
    intro acc hacc
    rw [List.foldl_cons]
    apply ih
    intro kv hkv
    rw [mergeEntry] at hkv
    split at hkv
    · exact hacc kv hkv
    · split at hkv
      · exact hacc kv hkv
      next hforb _ =>
        rcases objSet_mem hkv with h1 | h1
        · exact hacc kv h1
        · rw [h1]
          simpa using hforb

/-- The outer merge loop never introduces a forbidden key. -/
theorem foldl_mergeSource_forbidden {sources : List (Option Fields)} :
    ∀ {acc : Fields}, (∀ kv ∈ acc, isForbiddenKey kv.1 = false) →
      ∀ kv ∈ sources.foldl mergeSource acc, isForbiddenKey kv.1 = false := by
  induction sources with
  | nil => intro acc hacc; exact hacc
  | cons s rest ih =>
    intro acc hacc
    rw [List.foldl_cons]
    apply ih
    cases s with
    | none => exact hacc
    | some m => exact foldl_mergeEntry_forbidden hacc

/-- C6: the result of mergeMetadata never contains the keys __proto__,
constructor or prototype, whichever source supplies them. -/
theorem mergeMetadata_drops_forbidden :
    ∀ (sources : List (Option Fields)) (m : Fields) (k : String) (v : Value),
      mergeMetadata sources = some m → (k, v) ∈ m → isForbiddenKey k = false := by
  intro sources m k v hmerge hmem
  have hm : m = mergeAllList sources := by
    simp only [mergeMetadata] at hmerge
    split at hmerge
    · exact (Option.some.inj hmerge).symm
    · exact Option.noConfusion hmerge
  subst hm
  rw [mergeAllList] at hmem
  exact foldl_mergeSource_forbidden (fun kv h => absurd h (List.not_mem_nil kv)) (k, v) hmem

/-- Witness for C6: a source supplying __proto__ contributes nothing; the
surviving key is not forbidden. -/
theorem mergeMetadata_drops_forbidden_witness : isForbiddenKey "a" = false :=
  mergeMetadata_drops_forbidden [some [("__proto__", Value.vNum 1), ("a", Value.vNum 2)]]
    [("a", Value.vNum 2)] "a" (Value.vNum 2) rfl (List.mem_singleton.mpr rfl)

/-! ## C7: algebraic laws of mergeMetadata -/

/-- A merged accumulator is "clean": no forbidden keys, no undefined values,
and no duplicate keys. -/
def CleanNodup (m : Fields) : Prop :=
  (∀ kv ∈ m, isForbiddenKey kv.1 = false ∧ isUndefined kv.2 = false) ∧
    (m.map Prod.fst).Nodup

/-- Assignment preserves cleanliness when the new entry is clean. -/
theorem objSet_cleanNodup {m : Fields} {k : String} {v : Value} (hm : CleanNodup m)
    (hk : isForbiddenKey k = false) (hv : isUndefined v = false) :
    CleanNodup (objSet m k v) := by
  constructor
  · intro kv hkv
    rcases objSet_mem hkv with h | h
    · exact hm.1 kv h
    · rw [h]
      exact ⟨hk, hv⟩
  · rw [objSet]
    split
    next hany =>
      have hmap : (m.map (fun kv => if kv.1 = k then (k, v) else kv)).map Prod.fst =
          m.map Prod.fst := by
        rw [List.map_map]
        apply List.map_congr_left
        intro kv _
        by_cases h : kv.1 = k
        · simp [h]
        · simp [h]
      rw [hmap]
      exact hm.2
    next hany =>
      rw [List.map_append]
      apply List.Nodup.append hm.2 (List.nodup_singleton k)
      intro x hx hx2
      have hxk : x = k := by simpa using hx2
      subst hxk
      obtain ⟨kv, hkv, hfst⟩ := List.mem_map.mp hx
      exact hany (List.any_eq_true.mpr ⟨kv, hkv, by simpa using hfst⟩)

/-- One merge step preserves cleanliness. -/
theorem mergeEntry_cleanNodup {acc : Fields} {e : String × Value} (h : CleanNodup acc) :
    CleanNodup (mergeEntry acc e) := by
  rw [mergeEntry]
  split
  · exact h
  · split
    · exact h
    next hforb hundef =>
      exact objSet_cleanNodup h (by simpa using hforb) (by simpa using hundef)

/-- The inner merge loop preserves cleanliness. -/
theorem foldl_mergeEntry_cleanNodup (l : Fields) :
    ∀ {acc : Fields}, CleanNodup acc → CleanNodup (l.foldl mergeEntry acc) := by
  induction l with
  | nil => intro acc h; exact h
  | cons e rest ih =>
    intro acc h
    rw [List.foldl_cons]
    exact ih (mergeEntry_cleanNodup h)

/-- The merged object of any source list is clean. -/
theorem mergeAllList_cleanNodup (sources : List (Option Fields)) :
    CleanNodup (mergeAllList sources) := by
  rw [mergeAllList]
  have main : ∀ (ss : List (Option Fields)) (acc : Fields), CleanNodup acc →
      CleanNodup (ss.foldl mergeSource acc) := by
    intro ss
    induction ss with
    | nil => intro acc h; exact h
    | cons s rest ih =>
      intro acc h
      rw [List.foldl_cons]
      apply ih
      cases s with
      | none => exact h
      | some m => exact foldl_mergeEntry_cleanNodup m h
  exact main sources [] ⟨fun kv h => absurd h (List.not_mem_nil kv), by simp⟩

/-- Folding a clean list whose keys avoid the accumulator replays it by
appending. -/
theorem foldl_mergeEntry_clean_append :
    ∀ (m acc : Fields), CleanNodup m →
      (∀ kv ∈ m, kv.1 ∉ acc.map Prod.fst) →
      m.foldl mergeEntry acc = acc ++ m := by
  intro m
  induction m with
  | nil => intro acc _ _; simp
  | cons e rest ih =>
    intro acc hclean hdisj
    obtain ⟨k, v⟩ := e
    rw [List.foldl_cons]
    have he := hclean.1 (k, v) (List.mem_cons_self _ _)
    have hnotin := hdisj (k, v) (List.mem_cons_self _ _)
    have hany : ¬ (acc.any (fun kv => kv.1 = k) = true) := by
      rw [List.any_eq_true]
      rintro ⟨x, hx, hpx⟩
      have hxk : x.1 = k := by simpa using hpx
      exact hnotin (List.mem_map.mpr ⟨x, hx, hxk⟩)
    have hstep : mergeEntry acc (k, v) = acc ++ [(k, v)] := by
      rw [mergeEntry, if_neg (by simp [he.1]), if_neg (by simp [he.2]), objSet, if_neg hany]
    rw [hstep]
    have hknodup : k ∉ rest.map Prod.fst ∧ (rest.map Prod.fst).Nodup := by
      have h2 := hclean.2
      rw [List.map_cons] at h2
      exact List.nodup_cons.mp h2
    rw [ih (acc ++ [(k, v)])
      ⟨fun kv h => hclean.1 kv (List.mem_cons_of_mem _ h), hknodup.2⟩
      ?_]
    · rw [List.append_assoc, List.singleton_append]
    · intro kv hkv
      rw [List.map_append]
      intro hmem
      rcases List.mem_append.mp hmem with h1 | h1
      · exact hdisj kv (List.mem_cons_of_mem _ hkv) h1
      · have : kv.1 = k := by simpa using h1
        exact hknodup.1 (this ▸ List.mem_map.mpr ⟨kv, hkv, rfl⟩)

/-- Re-merging an already merged object from the empty accumulator is the
identity. -/
theorem mergeSource_nil_merged (xs : List (Option Fields)) :
    mergeSource [] (mergeMetadata xs) = mergeAllList xs := by
  simp only [mergeMetadata]
  split
  next hpos =>
    simp only [mergeSource]
    rw [foldl_mergeEntry_clean_append (mergeAllList xs) [] (mergeAllList_cleanNodup xs)
      (fun kv _ => by simp), List.nil_append]
  next hpos =>
    simp only [mergeSource]
    exact (List.length_eq_zero.mp (by omega)).symm

/-- Assignment always yields a non-empty object. -/
theorem objSet_length_pos (m : Fields) (k : String) (v : Value) :
    0 < (objSet m k v).length := by
  rw [objSet]
  split
  next hany =>
    rw [List.length_map]
    obtain ⟨x, hx, _⟩ := List.any_eq_true.mp hany
    exact List.length_pos.mpr (fun he => by simp [he] at hx)
  next hany =>
    rw [List.length_append]
    simp

/-- Looking up the assigned key finds the assigned value. -/
theorem lookup_objSet_self (k : String) (v : Value) :
    ∀ m : Fields, List.lookup k (objSet m k v) = some v := by
  intro m
  induction m with
  | nil =>
    rw [objSet, if_neg (by simp)]
    simp [List.lookup]
  | cons e rest ih =>
    obtain ⟨k1, v1⟩ := e
    rw [objSet]
    by_cases hk : k1 = k
    · rw [if_pos (by simp [hk])]
      rw [List.map_cons]
      have h1 : (if ((k1, v1) : String × Value).1 = k then (k, v) else (k1, v1)) = (k, v) := by
        simp [hk]
      rw [h1]
      simp [List.lookup]
    · have hbeq : (k == k1) = false := beq_eq_false_iff_ne.mpr (fun h => hk h.symm)
      by_cases hany : rest.any (fun kv => kv.1 = k) = true
      · rw [if_pos (by simp [List.any_cons, hany])]
        rw [List.map_cons]
        have h1 : (if ((k1, v1) : String × Value).1 = k then (k, v) else (k1, v1)) = (k1, v1) := by
          simp [hk]
        rw [h1, List.lookup, hbeq]
        have h2 : objSet rest k v = rest.map (fun kv => if kv.1 = k then (k, v) else kv) := by
          rw [objSet, if_pos hany]
        exact h2 ▸ ih
      · rw [if_neg (by simp [List.any_cons, hany, hk])]
        rw [List.cons_append, List.lookup, hbeq]
        have h2 : objSet rest k v = rest ++ [(k, v)] := by
          rw [objSet, if_neg hany]
        exact h2 ▸ ih

/-- A merge step can only erase emptiness when the entry is ineffective. -/
theorem mergeEntry_eq_nil_iff (acc : Fields) (e : String × Value) :
    mergeEntry acc e = [] ↔
      acc = [] ∧ (isForbiddenKey e.1 = true ∨ isUndefined e.2 = true) := by
  rw [mergeEntry]
  split
  next hforb =>
    exact ⟨fun h => ⟨h, Or.inl hforb⟩, fun h => h.1⟩
  next hforb =>
    split
    next hundef =>
      exact ⟨fun h => ⟨h, Or.inr hundef⟩, fun h => h.1⟩
    next hundef =>
      constructor
      · intro h
        have hpos := objSet_length_pos acc e.1 e.2
        rw [h] at hpos
        simp at hpos
      · rintro ⟨_, h2 | h2⟩
        · exact absurd h2 hforb
        · exact absurd h2 hundef

/-- The inner loop ends empty exactly when it started empty and every entry
was ineffective. -/
theorem foldl_mergeEntry_eq_nil (l : Fields) :
    ∀ acc : Fields, l.foldl mergeEntry acc = [] ↔
      acc = [] ∧ ∀ kv ∈ l, isForbiddenKey kv.1 = true ∨ isUndefined kv.2 = true := by
  induction l with
  | nil => intro acc; simp
  | cons e rest ih =>
    intro acc
    rw [List.foldl_cons, ih, mergeEntry_eq_nil_iff]
    constructor
    · rintro ⟨⟨hacc, he⟩, hrest⟩
      refine ⟨hacc, fun kv hkv => ?_⟩
      rcases List.mem_cons.mp hkv with h | h
      · rw [h]
        exact he
      · exact hrest kv h
    · rintro ⟨hacc, hall⟩
      exact ⟨⟨hacc, hall e (List.mem_cons_self _ _)⟩,
        fun kv h => hall kv (List.mem_cons_of_mem _ h)⟩

/-- A source merges to nothing exactly when it is effectively empty. -/
theorem mergeSource_eq_nil (acc : Fields) (src : Option Fields) :
    mergeSource acc src = [] ↔ acc = [] ∧ effEmptySource src = true := by
  cases src with
  | none => simp [mergeSource, effEmptySource]
  | some m =>
    simp only [mergeSource, effEmptySource]
    rw [foldl_mergeEntry_eq_nil, List.all_eq_true]
    constructor
    · rintro ⟨h1, h2⟩
      refine ⟨h1, fun kv hkv => ?_⟩
      rcases h2 kv hkv with h | h <;> simp [h]
    · rintro ⟨h1, h2⟩
      refine ⟨h1, fun kv hkv => ?_⟩
      simpa using h2 kv hkv

/-- The outer loop ends empty exactly when it started empty and every source
is effectively empty. -/
theorem foldl_mergeSource_eq_nil (sources : List (Option Fields)) :
    ∀ acc : Fields, sources.foldl mergeSource acc = [] ↔
      acc = [] ∧ ∀ src ∈ sources, effEmptySource src = true := by
  induction sources with
  | nil => intro acc; simp
  | cons s rest ih =>
    intro acc
    rw [List.foldl_cons, ih, mergeSource_eq_nil]
    constructor
    · rintro ⟨⟨h1, h2⟩, h3⟩
      refine ⟨h1, fun src hsrc => ?_⟩
      rcases List.mem_cons.mp hsrc with h | h
      · rw [h]
        exact h2
      · exact h3 src h
    · rintro ⟨h1, h2⟩
      exact ⟨⟨h1, h2 s (List.mem_cons_self _ _)⟩,
        fun src h => h2 src (List.mem_cons_of_mem _ h)⟩

/-- mergeMetadata is null exactly when the accumulated object is empty. -/
theorem mergeMetadata_eq_none_iff_nil (sources : List (Option Fields)) :
    mergeMetadata sources = none ↔ mergeAllList sources = [] := by
  simp only [mergeMetadata]
  split
  next hpos =>
    constructor
    · intro h
      exact Option.noConfusion h
    · intro h
      rw [h] at hpos
      simp at hpos
  next hpos =>
    constructor
    · intro _
      exact List.length_eq_zero.mp (by omega)
    · intro _
      rfl

/-- C7: mergeMetadata is associative (pre-merging a prefix changes nothing),
right-biased (the last source's defined value wins), ignores undefined
values, and returns null exactly when every input is effectively empty after
forbidden-key removal. -/
theorem mergeMetadata_laws :
    (∀ xs ys : List (Option Fields),
      mergeMetadata (mergeMetadata xs :: ys) = mergeMetadata (xs ++ ys)) ∧
    (∀ (xs : List (Option Fields)) (k : String) (v : Value),
      isForbiddenKey k = false → isUndefined v = false →
      ∃ m, mergeMetadata (xs ++ [some [(k, v)]]) = some m ∧ List.lookup k m = some v) ∧
    (∀ (xs : List (Option Fields)) (k : String),
      mergeMetadata (xs ++ [some [(k, Value.vUndefined)]]) = mergeMetadata xs) ∧
    (∀ sources : List (Option Fields),
      mergeMetadata sources = none ↔ sources.all effEmptySource = true) := by
  have key : ∀ s1 s2 : List (Option Fields), mergeAllList s1 = mergeAllList s2 →
      mergeMetadata s1 = mergeMetadata s2 := by
    intro s1 s2 h
    simp only [mergeMetadata]
    rw [h]
  refine ⟨?_, ?_, ?_, ?_⟩
  · intro xs ys
    apply key
    have hys : mergeAllList (xs ++ ys) = ys.foldl mergeSource (mergeAllList xs) := by
      rw [mergeAllList, List.foldl_append]
      rfl
    rw [mergeAllList, List.foldl_cons, mergeSource_nil_merged, hys]
  · intro xs k v hk hv
    have hall : mergeAllList (xs ++ [some [(k, v)]]) = objSet (mergeAllList xs) k v := by
      rw [mergeAllList, List.foldl_append, List.foldl_cons, List.foldl_nil]
      simp only [mergeSource]
      rw [List.foldl_cons, List.foldl_nil, mergeEntry,
        if_neg (by simp [hk]), if_neg (by simp [hv])]
      rfl
    refine ⟨objSet (mergeAllList xs) k v, ?_, lookup_objSet_self k v _⟩
    simp only [mergeMetadata]
    rw [hall]
    exact if_pos (objSet_length_pos (mergeAllList xs) k v)
  · intro xs k
    apply key
    rw [mergeAllList, List.foldl_append, List.foldl_cons, List.foldl_nil]
    simp only [mergeSource]
    rw [List.foldl_cons, List.foldl_nil, mergeEntry]
    split
    · rfl
    · simp [isUndefined, mergeAllList]
  · intro sources
    rw [mergeMetadata_eq_none_iff_nil, mergeAllList, foldl_mergeSource_eq_nil,
      List.all_eq_true]
    constructor
    · rintro ⟨_, h⟩
      exact h
    · intro h
      exact ⟨rfl, h⟩

/-- Witness for C7: the right-bias conjunct at a concrete pair of sources. -/
theorem mergeMetadata_laws_witness :
    ∃ m, mergeMetadata [some [("b", Value.vNum 1)], some [("a", Value.vNum 2)]] = some m ∧
      List.lookup "a" m = some (Value.vNum 2) := by
  have h := mergeMetadata_laws.2.1 [some [("b", Value.vNum 1)]] "a" (Value.vNum 2) rfl rfl
  simpa using h

end WrAuditLog
